import Mathlib

/-!
# Verification of the go-pulp HTTP client library

Shallow embedding of the request/response plumbing layer of the go-pulp
library (`pulp/pulp.go`, `pulp/tasks.go`, `pulp/unit.go`) in Lean 4,
together with theorems settling the specification claims.

Strings are modelled as `List Char` (Go strings are byte sequences; all
the characters the library manipulates structurally are ASCII, so the
character-level view coincides with the byte-level one).  Calls into the
Go standard library (`net/url`, `encoding/json`, `strings`, `strconv`)
are either modelled executably below (documented at each definition) or
taken as explicit function parameters where the repository only forwards
their result (JSON unmarshalling).
-/

namespace GoPulp

/-- Model of Go `unicode.IsSpace` restricted to the characters it accepts
(space, tab, newline, vertical tab, form feed, carriage return, NEL,
NBSP).  Used by `strings.TrimSpace`. -/
def goIsSpace (c : Char) : Bool :=
  c = ' ' || c = '\t' || c = '\n' || c = (Char.ofNat 11) || c = (Char.ofNat 12) ||
  c = '\r' || c = (Char.ofNat 133) || c = (Char.ofNat 160)

/-- Model of Go `strings.TrimSpace`: drop leading and trailing whitespace. -/
def trimC (l : List Char) : List Char :=
  ((l.dropWhile goIsSpace).reverse.dropWhile goIsSpace).reverse

/-- Model of Go `strings.Split(s, sep)` for a one-character separator:
split at every occurrence, keeping empty fields. -/
def splitOnC (sep : Char) : List Char → List (List Char)
  | [] => [[]]
  | c :: cs =>
    let r := splitOnC sep cs
    if c = sep then [] :: r else (c :: r.headD []) :: r.tail

/-- Split at the first occurrence of `sep`: returns the part before it and,
when `sep` occurs, the part after it. -/
def splitFirstC (sep : Char) : List Char → List Char × Option (List Char)
  | [] => ([], none)
  | c :: cs =>
    if c = sep then ([], some cs)
    else
      let r := splitFirstC sep cs
      (c :: r.1, r.2)

/-- Model of Go `strings.HasSuffix(s, t)` for a one-character suffix. -/
def endsWithC (c : Char) (l : List Char) : Bool :=
  l.getLast? = some c

/-- Hexadecimal digit value, as in Go `net/url.unhex`. -/
def unhex (c : Char) : Option Nat :=
  if '0' ≤ c ∧ c ≤ '9' then some (c.toNat - '0'.toNat)
  else if 'a' ≤ c ∧ c ≤ 'f' then some (c.toNat - 'a'.toNat + 10)
  else if 'A' ≤ c ∧ c ≤ 'F' then some (c.toNat - 'A'.toNat + 10)
  else none

/-- Model of Go `net/url.QueryUnescape`: decode `%XX` escapes, turn `+`
into a space; `none` on a malformed escape (Go returns `"", err`). -/
def queryUnescapeC : List Char → Option (List Char)
  | [] => some []
  | '%' :: a :: b :: rest =>
    match unhex a, unhex b with
    | some x, some y => (queryUnescapeC rest).map (fun r => Char.ofNat (16 * x + y) :: r)
    | _, _ => none
  | '%' :: _ => none
  | '+' :: rest => (queryUnescapeC rest).map (fun r => ' ' :: r)
  | c :: rest => (queryUnescapeC rest).map (fun r => c :: r)

/-- Digit string to number: `some` iff nonempty and all decimal digits. -/
def digitsVal : List Char → Option Nat
  | [] => none
  | [c] => if c.isDigit then some (c.toNat - '0'.toNat) else none
  | c :: rest =>
    if c.isDigit then
      (digitsVal rest).map (fun n => (c.toNat - '0'.toNat) * 10 ^ rest.length + n)
    else none

/-- Model of Go `strconv.Atoi` as used with a discarded error
(`n, _ := strconv.Atoi(s)`): optional sign followed by digits; any parse
failure yields `0`.  (Machine-integer overflow is not modelled; the page
numbers involved are far below the `int64` bound.) -/
def atoiC (l : List Char) : Int :=
  match l with
  | '+' :: rest => ((digitsVal rest).map Int.ofNat).getD 0
  | '-' :: rest => -(((digitsVal rest).map Int.ofNat).getD 0)
  | _ => ((digitsVal l).map Int.ofNat).getD 0

/-- Model of Go `net/url.URL` restricted to the fields go-pulp touches.
`opq` models the `Opaque` field (the name `Opaque` itself is a Lean
keyword).  `forceQuery` models `ForceQuery`. -/
structure GoURL where
  scheme : List Char := []
  opq : List Char := []
  host : List Char := []
  path : List Char := []
  rawQuery : List Char := []
  forceQuery : Bool := false
  fragment : List Char := []
deriving Repr, DecidableEq

/-- Characters Go `net/url.Parse` rejects outright ("invalid control
character in URL"). -/
def isCtl (c : Char) : Bool :=
  c.toNat < 32 || c.toNat = 127

/-- Model of Go `net/url.getScheme`: scan a leading `alpha (alnum|+|-|.)*`
run; a `:` ending such a run yields `some (scheme, rest)`; a `:` as the
very first character is an error (`none`); any other stop yields the whole
input back with an empty scheme.  `first` records whether we are at the
first character, `acc` the scheme characters read so far, `orig` the whole
input. -/
def findSchemeAux (orig : List Char) : List Char → Bool → List Char →
    Option (List Char × List Char)
  | _, _, [] => some ([], orig)
  | acc, first, c :: cs =>
    if c.isAlpha then findSchemeAux orig (acc ++ [c]) false cs
    else if (c.isDigit || c = '+' || c = '-' || c = '.') && !first then
      findSchemeAux orig (acc ++ [c]) false cs
    else if c = ':' then
      if first then none else some (acc, cs)
    else some ([], orig)

def findScheme (l : List Char) : Option (List Char × List Char) :=
  findSchemeAux l [] true l

/-- The tail of the `net/url.Parse` model, after fragment, query and
scheme have been split off: a `//`-authority (host up to the next `/`,
then the rooted path), an opaque part (scheme present, rest not starting
with `/`), the colon-in-first-segment error for scheme-less URLs, or a
plain path. -/
def parseTail (scheme rest rawQ : List Char) (forceQ : Bool)
    (frag : List Char) : Option GoURL :=
  if rest.take 2 = ['/', '/'] then
    some { scheme := scheme, host := (splitFirstC '/' (rest.drop 2)).1,
           path := (match (splitFirstC '/' (rest.drop 2)).2 with
                    | some p => '/' :: p
                    | none => []),
           rawQuery := rawQ, forceQuery := forceQ, fragment := frag }
  else if scheme ≠ [] ∧ rest.take 1 ≠ ['/'] then
    some { scheme := scheme, opq := rest, rawQuery := rawQ,
           forceQuery := forceQ, fragment := frag }
  else if scheme = [] ∧ ':' ∈ (splitFirstC '/' rest).1 then
    none
  else
    some { scheme := scheme, path := rest, rawQuery := rawQ,
           forceQuery := forceQ, fragment := frag }

/-- Scheme extraction stage of the `net/url.Parse` model (`getScheme`,
lower-cased like Go). -/
def parseNoQuery (rest0 rawQ : List Char) (forceQ : Bool)
    (frag : List Char) : Option GoURL :=
  match findScheme rest0 with
  | none => none
  | some (sch, rest) => parseTail (sch.map Char.toLower) rest rawQ forceQ frag

/-- Query extraction stage of the `net/url.Parse` model: a lone trailing
`?` sets `ForceQuery` with an empty query (as in Go 1.7); otherwise the
query is everything after the first `?`. -/
def parseNoFrag (bf frag : List Char) : Option GoURL :=
  if endsWithC '?' bf ∧ ¬ ('?' ∈ bf.dropLast) then
    parseNoQuery bf.dropLast [] true frag
  else
    parseNoQuery (splitFirstC '?' bf).1 ((splitFirstC '?' bf).2.getD [])
      false frag

/-- Model of Go `net/url.Parse` for the URL shapes go-pulp handles:
reject control characters, split the fragment at the first `#`, then the
query, scheme, and authority/opaque/path stages above.  Percent-escape
validation of path and host is not modelled (the accepted set is a
superset of Go's). -/
def urlParseC (l : List Char) : Option GoURL :=
  if l.any isCtl then none
  else parseNoFrag (splitFirstC '#' l).1 ((splitFirstC '#' l).2.getD [])

/-- Model of Go `net/url.URL.String()` (Go 1.7 layout): `scheme:`, then the
opaque part, or `//host` (when a scheme or host is present) followed by the
path, then `?query` (when forced or nonempty), then `#fragment`.
Percent-re-escaping is not modelled; it never touches `/`, `?`, `#`
placement. -/
def toGoStringC (u : GoURL) : List Char :=
  (if u.scheme ≠ [] then u.scheme ++ [':'] else []) ++
  (if u.opq ≠ [] then u.opq
   else
     (if u.scheme ≠ [] ∨ u.host ≠ [] then '/' :: '/' :: u.host else []) ++ u.path) ++
  (if u.forceQuery ∨ u.rawQuery ≠ [] then '?' :: u.rawQuery else []) ++
  (if u.fragment ≠ [] then '#' :: u.fragment else [])

/-- Model of Go `net/url.Values.Get(key)` on a raw query (Go 1.7
`ParseQuery`): split on `&`/`;`, take `key=value` per pair, query-unescape
both, skip pairs with empty keys or bad escapes, return the first value
bound to `key` (empty when absent). -/
def queryPairs (raw : List Char) : List (List Char × List Char) :=
  (raw.splitOnP (fun c => c = '&' || c = ';')).filterMap (fun kv =>
    if kv = [] then none
    else
      let s := splitFirstC '=' kv
      match queryUnescapeC s.1, queryUnescapeC (s.2.getD []) with
      | some k, some v => some (k, v)
      | _, _ => none)

def queryGetC (raw key : List Char) : List Char :=
  match (queryPairs raw).find? (fun p => p.1 = key) with
  | some p => p.2
  | none => []

/-! ## Client, request construction (`pulp.go` lines 33-160) -/

/-- `pulp.go` constant `defaultUser = "admin"`. -/
def defaultUser : List Char := "admin".data

/-- `pulp.go` constant `defaultPassword = "admin"`. -/
def defaultPassword : List Char := "admin".data

/-- `pulp.go` constant `userAgent = "go-pulp/" + libraryVersion`. -/
def userAgentConst : List Char := "go-pulp/".data ++ "0.1".data

/-- `pulp.go` constant `apiVersion = "v2"`. -/
def apiVersionConst : List Char := "v2".data

/-- Model of the `pulp.Client` fields the claims touch: the `ssl` flag, the
parsed base URL, and the `UserAgent` string.  The embedded `*http.Client`
transport handle is modelled at each `Do` call by an explicit transport
result. -/
structure ClientM where
  ssl : Bool := false
  baseURL : GoURL := {}
  userAgent : List Char := userAgentConst
deriving Repr, DecidableEq

/-- Model of a per-call options value.  go-pulp only ever hands `opt` to
`query.Values(opt).Encode()` (go-querystring) and `json.Marshal(opt)`
(encoding/json); both are external libraries, so an options value is
modelled by the two results they produce for it (`Except` carrying the
error message on failure, mirroring the `error` returns). -/
structure OptModel where
  queryEnc : Except (List Char) (List Char) := .ok []
  jsonEnc : Except (List Char) (List Char) := .ok []

/-- Model of `http.Header.Set`: replace any existing value for the key. -/
def setHeader (h : List (List Char × List Char)) (key val : List Char) :
    List (List Char × List Char) :=
  (key, val) :: h.filter (fun p => p.1 ≠ key)

/-- First value for a header key, `none` when absent. -/
def getHeader (h : List (List Char × List Char)) (key : List Char) :
    Option (List Char) :=
  (h.find? (fun p => p.1 = key)).map (fun p => p.2)

/-- Model of `http.Request` restricted to what `NewRequest` sets: method,
URL, headers, basic-auth credentials (Go's `SetBasicAuth` writes an
`Authorization: Basic base64(user:pass)` header; the model keeps the
credential pair itself), body bytes and content length. -/
structure RequestM where
  method : List Char := []
  url : GoURL := {}
  headers : List (List Char × List Char) := []
  basicAuth : Option (List Char × List Char) := none
  body : Option (List Char) := none
  contentLength : Int := 0
  host : List Char := []
deriving Repr, DecidableEq

/-- The trailing header block of `NewRequest` (`pulp.go` lines 153-157):
`Accept: application/json`, basic auth with the default credentials, and
`User-Agent` when the client's `UserAgent` is nonempty. -/
def finishHeaders (c : ClientM) (r : RequestM) : RequestM :=
  let h := setHeader r.headers ("Accept".data) ("application/json".data)
  let h := if c.userAgent ≠ [] then setHeader h ("User-Agent".data) c.userAgent else h
  { r with headers := h, basicAuth := some (defaultUser, defaultPassword) }

/-- Model of `Client.NewRequest` (`pulp.go` lines 119-160): copy the base
URL, set `Opaque` to base path + path, encode the options into the query
string; for `POST`/`PUT` marshal the options as the JSON body, clear the
query string (the request URL aliases `u`, so the clearing is visible on
the request) and set `Content-Type`; finish with the common headers. -/
def NewRequest (c : ClientM) (method path : List Char) (opt : OptModel) :
    Except (List Char) RequestM :=
  match opt.queryEnc with
  | .error e => .error e
  | .ok qenc =>
    let u : GoURL := { c.baseURL with opq := c.baseURL.path ++ path, rawQuery := qenc }
    let req0 : RequestM := { method := method, url := u, headers := [], host := u.host }
    if method = "POST".data ∨ method = "PUT".data then
      match opt.jsonEnc with
      | .error e => .error e
      | .ok bodyBytes =>
        .ok (finishHeaders c
          { req0 with
            url := { u with rawQuery := [] }
            body := some bodyBytes
            contentLength := Int.ofNat bodyBytes.length
            headers := setHeader req0.headers ("Content-Type".data) ("application/json".data) })
    else
      .ok (finishHeaders c req0)

/-! ## Pagination (`pulp.go` lines 110-117 and 162-208) -/

/-- The four derived pagination fields of `pulp.Response` (zero value means
"no such page"). -/
structure Pages where
  next : Int := 0
  prev : Int := 0
  first : Int := 0
  last : Int := 0
deriving Repr, DecidableEq

/-- The literal relation attribute compared against in the `switch`. -/
def relC (r : List Char) : List Char := "rel=\"".data ++ r ++ "\"".data

/-- The inner loop body of `populatePageValues`: one `rel` segment,
trimmed and matched against the four recognized relations; on a match the
corresponding field is assigned `strconv.Atoi(page)` with the error
discarded. -/
def processSegment (page : List Char) (st : Pages) (seg : List Char) : Pages :=
  if trimC seg = relC ("next".data) then { st with next := atoiC page }
  else if trimC seg = relC ("prev".data) then { st with prev := atoiC page }
  else if trimC seg = relC ("first".data) then { st with first := atoiC page }
  else if trimC seg = relC ("last".data) then { st with last := atoiC page }
  else st

/-- The outer loop body of `populatePageValues`: one comma-separated link,
trimmed and split on `;`; skipped when it has fewer than two segments, when
the href is not enclosed in `<`…`>`, when the href does not parse as a URL,
or when the URL has no `page` query parameter; otherwise every remaining
segment is matched against the relations. -/
def processLink (st : Pages) (link : List Char) : Pages :=
  let segments := splitOnC ';' (trimC link)
  match segments with
  | s0 :: s1 :: rest =>
    if s0.take 1 = ['<'] ∧ endsWithC '>' s0 then
      match urlParseC ((s0.drop 1).dropLast) with
      | none => st
      | some u =>
        let page := queryGetC u.rawQuery ("page".data)
        if page = [] then st
        else (s1 :: rest).foldl (processSegment page) st
    else st
  | _ => st

/-- Model of `Response.populatePageValues` (`pulp.go` lines 168-208): read
the first value of the `Link` header and fold the links over the zero
`Pages`. -/
def populatePageValues (headers : List (List Char × List (List Char))) : Pages :=
  match headers.find? (fun p => p.1 = ("Link".data)) with
  | some p =>
    match p.2 with
    | l0 :: _ => (splitOnC ',' l0).foldl processLink {}
    | [] => {}
  | none => {}

/-! ## Response classification (`pulp.go` lines 246-281) -/

/-- `pulp.Error`: one field-level validation error. -/
structure ErrorM where
  resource : List Char := []
  field : List Char := []
  code : List Char := []
deriving Repr, DecidableEq

/-- Model of `http.Response` restricted to what go-pulp reads: status code,
headers, body bytes (already read; `ioutil.ReadAll` is modelled as
succeeding) and the originating request. -/
structure HTTPResponseM where
  statusCode : Int := 200
  headers : List (List Char × List (List Char)) := []
  body : List Char := []
  request : RequestM := {}
deriving Repr, DecidableEq

/-- `pulp.ErrorResponse`: the embedded raw response plus the best-effort
parsed `message` and `errors` payload. -/
structure ErrorResponseM where
  response : HTTPResponseM := {}
  message : List Char := []
  errors : List ErrorM := []
deriving Repr, DecidableEq

/-- Model of `CheckResponse` (`pulp.go` lines 271-281).  `unmarshal` stands
for `json.Unmarshal` of the body into the zero `ErrorResponse`
(encoding/json is external): `some (message, errors)` when the body parses
as an error payload, `none` when it does not — in which case the fields
keep their zero values, exactly as the ignored `json.Unmarshal` error
leaves them. -/
def CheckResponse (unmarshal : List Char → Option (List Char × List ErrorM))
    (r : HTTPResponseM) : Option ErrorResponseM :=
  if 200 ≤ r.statusCode ∧ r.statusCode ≤ 299 then none
  else
    match unmarshal r.body with
    | some me => some { response := r, message := me.1, errors := me.2 }
    | none => some { response := r }

/-- `pulp.Response`: the raw response plus the derived pagination fields. -/
structure ResponseM where
  resp : HTTPResponseM
  pages : Pages
deriving Repr, DecidableEq

/-- Model of `newResponse` (`pulp.go` lines 162-166). -/
def newResponse (r : HTTPResponseM) : ResponseM :=
  { resp := r, pages := populatePageValues r.headers }

/-! ## Request execution (`pulp.go` lines 210-233) -/

/-- The `v interface{}` argument of `Do`: `nil`, an `io.Writer` carrying
the bytes written so far, or a JSON-decode target holding the decoded
value once written. -/
inductive DoTarget (β : Type) where
  | nilT : DoTarget β
  | writerT : List Char → DoTarget β
  | decodeT : Option β → DoTarget β
deriving DecidableEq

/-- The error outcomes of `Do`: transport failure, classified API error, or
JSON decode failure of a successful response. -/
inductive DoErr where
  | transportE : List Char → DoErr
  | apiE : ErrorResponseM → DoErr
  | decodeE : List Char → DoErr
deriving DecidableEq

/-- Model of `Client.Do` (`pulp.go` lines 210-233).  `transport` is the
result of `c.client.Do(req)`; `dec` stands for
`json.NewDecoder(body).Decode` (external); `unmarshal` as in
`CheckResponse`.  Returns the `*Response`, the `error`, and the final
state of the caller's target (`io.Copy` into a writer is modelled as
succeeding; a failed decode leaves the target unwritten). -/
def Do {β : Type} (dec : List Char → Except (List Char) β)
    (unmarshal : List Char → Option (List Char × List ErrorM))
    (transport : Except (List Char) HTTPResponseM)
    (v : DoTarget β) : Option ResponseM × Option DoErr × DoTarget β :=
  match transport with
  | .error e => (none, some (.transportE e), v)
  | .ok resp =>
    let response := newResponse resp
    match CheckResponse unmarshal resp with
    | some er => (some response, some (.apiE er), v)
    | none =>
      match v with
      | .nilT => (some response, none, .nilT)
      | .writerT buf => (some response, none, .writerT (buf ++ resp.body))
      | .decodeT _ =>
        match dec resp.body with
        | .ok b => (some response, none, .decodeT (some b))
        | .error e => (some response, some (.decodeE e), .decodeT none)

/-! ## parseID (`pulp.go` lines 235-244) -/

/-- The `interface{}` argument of `parseID`: a Go `int`, a Go `string`, or
a value of any other dynamic type (carrying its `%#v` rendering). -/
inductive GoValue where
  | intV : Int → GoValue
  | strV : List Char → GoValue
  | otherV : List Char → GoValue
deriving DecidableEq

/-- Model of `strconv.Itoa` (and of `fmt`'s `%d` on an `int`): decimal
representation, `-`-prefixed when negative. -/
def goItoa (i : Int) : List Char := (toString i).data

/-- Model of `parseID` (`pulp.go` lines 235-244): `(string, error)`. -/
def parseID : GoValue → List Char × Option (List Char)
  | .intV i => (goItoa i, none)
  | .strV s => (s, none)
  | .otherV d =>
    ([], some ("invalid ID type ".data ++ d ++
               ", the ID must be an int or a string".data))

/-! ## ErrorResponse rendering (`pulp.go` lines 252-258) -/

/-- `fmt`'s `%+v` rendering of one `pulp.Error` struct value. -/
def renderErrorPlus (e : ErrorM) : List Char :=
  "\x7bResource:".data ++ e.resource ++ " Field:".data ++ e.field ++
  " Code:".data ++ e.code ++ "\x7d".data

/-- `fmt`'s `%+v` rendering of the `[]Error` slice. -/
def renderErrorsPlus (es : List ErrorM) : List Char :=
  "[".data ++ (List.intercalate (" ".data) (es.map renderErrorPlus)) ++ "]".data

/-- Model of `ErrorResponse.Error()` (`pulp.go` lines 252-258): query-
unescape the request URL's opaque path (empty on unescape failure, as
`url.QueryUnescape` then returns `""`), rebuild `scheme://host+path`, and
render `"%v %s: %d %v %+v"` with method, the rebuilt URL, status code,
message and the field-error list. -/
def ErrorResponseM.errorString (r : ErrorResponseM) : List Char :=
  let path := (queryUnescapeC r.response.request.url.opq).getD []
  let ru := r.response.request.url.scheme ++ "://".data ++
    r.response.request.url.host ++ path
  r.response.request.method ++ " ".data ++ ru ++ ": ".data ++
    goItoa r.response.statusCode ++ " ".data ++ r.message ++ " ".data ++
    renderErrorsPlus r.errors

/-! ## Base-URL configuration (`pulp.go` lines 58-108) -/

/-- Model of `Client.SetBaseURL` (`pulp.go` lines 96-108): append a
trailing `/` when missing, then parse; on parse failure the client is
unchanged and the error is returned. -/
def SetBaseURL (c : ClientM) (urlStr : List Char) : Except Unit ClientM :=
  let s := if endsWithC '/' urlStr then urlStr else urlStr ++ ['/']
  match urlParseC s with
  | some u => .ok { c with baseURL := u }
  | none => .error ()

/-- Model of `Client.SetHost` (`pulp.go` lines 75-89). -/
def SetHost (c : ClientM) (host : List Char) : Except Unit ClientM :=
  let p := if c.ssl then "https".data else "http".data
  SetBaseURL c (p ++ "://".data ++ host ++ "/pulp/api/".data ++
    apiVersionConst ++ "/".data)

/-- Pointer-level model of `Client.BaseURL()` (`pulp.go` lines 91-94),
`u := *c.baseURL; return &u`: over an explicit heap of URL cells
(pointers are indices), allocate a fresh cell holding a copy of the cell
at `basePtr` and return its address. -/
def baseURLCopy (h : List GoURL) (basePtr : Nat) : Nat × List GoURL :=
  (h.length, h ++ [h.getD basePtr {}])

/-! ## Tasks (`tasks.go`) and the derived importer kind -/

/-- `pulp.Content` (`tasks.go` lines 28-35). -/
structure Content where
  state : List Char := []
  itemsTotal : Int := 0
  itemsLeft : Int := 0
  sizeTotal : Int := 0
  sizeLeft : Int := 0
  errorDetails : List (List Char) := []
deriving Repr, DecidableEq

/-- `pulp.Metadata` (`tasks.go` lines 38-41). -/
structure TaskMetadata where
  state : List Char := []
  error : List Char := []
deriving Repr, DecidableEq

/-- Modelled from the spec: the `pulp.Importer` type used by
`examples/main.go` (`var importer *pulp.Importer`) is absent from `src/`;
per the spec it is the progress-report substructure of one importer kind,
carrying the content and metadata snapshots. -/
structure Importer where
  content : Option Content := none
  metadata : Option TaskMetadata := none
deriving Repr, DecidableEq

/-- Modelled from the spec: the progress report is a tagged union over
importer kind — "exactly one of several named variants is non-null at a
time" — decoded by which JSON key was present, so each variant is an
`Option Importer` (`none` = the `yum_importer` / `docker_importer` key was
absent). -/
structure ProgressReport where
  yumImporter : Option Importer := none
  dockerImporter : Option Importer := none
deriving Repr, DecidableEq

/-- `pulp.Task` (`tasks.go` lines 44-70), with the progress report in the
spec-modelled tagged-union form above. -/
structure Task where
  id : List Char := []
  startTime : List Char := []
  finishTime : List Char := []
  state : List Char := []
  error : Option ErrorM := none
  progressReport : ProgressReport := {}
  resultContent : Option Content := none
deriving Repr, DecidableEq

/-- Modelled from the spec: the method `Task.Importer()` called by
`examples/main.go` is absent from `src/`.  Per the spec, the derived
importer kind is `"yum"` when the yum variant is populated (checked
first), `"docker"` when the docker variant is, and empty otherwise. -/
def Task.importerKind (t : Task) : List Char :=
  if t.progressReport.yumImporter.isSome then "yum".data
  else if t.progressReport.dockerImporter.isSome then "docker".data
  else []

/-- No segment of the header value `hv` carries the given link relation:
for every comma-separated link, no `;`-segment after the href trims to
`rel="<rel>"`. -/
def noRelSegment (rel hv : List Char) : Prop :=
  ∀ link ∈ splitOnC ',' hv, ∀ seg ∈ (splitOnC ';' (trimC link)).tail,
    trimC seg ≠ relC rel

/-! ## Theorems -/

/-- C9: `parseID` returns the decimal string of an `int`, returns a
`string` unchanged with no error, and returns the empty string together
with an error for a value of any other type. -/
theorem parseID_spec :
    (∀ i : Int, parseID (.intV i) = (goItoa i, none)) ∧
    (∀ s : List Char, parseID (.strV s) = (s, none)) ∧
    (∀ d : List Char, (parseID (.otherV d)).1 = [] ∧
      (parseID (.otherV d)).2.isSome = true) := by
  refine ⟨fun i => rfl, fun s => rfl, fun d => ⟨rfl, rfl⟩⟩

/-- C7: the derived importer kind of a decoded `Task` is `"yum"` when the
yum variant is populated and the docker one absent, `"docker"` in the
opposite case, empty when both are absent, and the first-checked kind
(yum) when both are present. -/
theorem task_importerKind_spec (t : Task) :
    (t.progressReport.yumImporter.isSome = true →
      t.progressReport.dockerImporter = none →
      t.importerKind = "yum".data) ∧
    (t.progressReport.dockerImporter.isSome = true →
      t.progressReport.yumImporter = none →
      t.importerKind = "docker".data) ∧
    (t.progressReport.yumImporter = none →
      t.progressReport.dockerImporter = none →
      t.importerKind = []) ∧
    (t.progressReport.yumImporter.isSome = true →
      t.progressReport.dockerImporter.isSome = true →
      t.importerKind = "yum".data) := by
  unfold Task.importerKind
  refine ⟨fun hy _ => by simp [hy], fun hd hy => by simp [hy, hd],
    fun hy hd => by simp [hy, hd], fun hy _ => by simp [hy]⟩

/-- Witness for C7 at a concrete task with only the yum variant present. -/
theorem task_importerKind_spec_witness :
    ({ progressReport := { yumImporter := some {} } } : Task).importerKind =
      "yum".data :=
  (task_importerKind_spec { progressReport := { yumImporter := some {} } }).1
    (by decide) rfl

/-- C2: `CheckResponse` returns no error exactly for status codes in
`[200, 299]`; for any other status it returns an error embedding the very
response (so the status matches), and when the body does not parse as an
error payload the message and error list are empty while the error is
still returned. -/
theorem checkResponse_spec
    (unmarshal : List Char → Option (List Char × List ErrorM))
    (r : HTTPResponseM) :
    (CheckResponse unmarshal r = none ↔
      (200 ≤ r.statusCode ∧ r.statusCode ≤ 299)) ∧
    (¬ (200 ≤ r.statusCode ∧ r.statusCode ≤ 299) →
      ∃ er, CheckResponse unmarshal r = some er ∧ er.response = r ∧
        er.response.statusCode = r.statusCode ∧
        (unmarshal r.body = none → er.message = [] ∧ er.errors = [])) := by
  unfold CheckResponse
  constructor
  · constructor
    · intro h
      by_contra hc
      rw [if_neg hc] at h
      cases hu : unmarshal r.body <;> simp [hu] at h
    · intro h; rw [if_pos h]
  · intro h
    rw [if_neg h]
    cases hu : unmarshal r.body with
    | none => exact ⟨_, rfl, rfl, rfl, fun _ => ⟨rfl, rfl⟩⟩
    | some me => exact ⟨_, rfl, rfl, rfl, fun hn => Option.noConfusion hn⟩

/-- Witness for C2 at status 404 with an unparsable body. -/
theorem checkResponse_spec_witness :
    ∃ er, CheckResponse (fun _ => none) ({ statusCode := 404 } : HTTPResponseM) =
      some er ∧ er.response = ({ statusCode := 404 } : HTTPResponseM) ∧
      er.response.statusCode = (404 : Int) ∧
      ((fun (_ : List Char) => (none : Option (List Char × List ErrorM)))
        ({ statusCode := 404 } : HTTPResponseM).body = none →
        er.message = [] ∧ er.errors = []) :=
  (checkResponse_spec (fun _ => none) { statusCode := 404 }).2 (by decide)

/-- C8: the rendered `ErrorResponse.Error()` string contains the request
method, the URL rebuilt from scheme, host and the query-unescaped opaque
path, the status code, the message, and the rendered field-error list. -/
theorem errorString_spec (r : ErrorResponseM) :
    (∃ t, r.errorString = r.response.request.method ++ t) ∧
    (∃ a t, r.errorString = a ++
      (r.response.request.url.scheme ++ "://".data ++
        r.response.request.url.host ++
        (queryUnescapeC r.response.request.url.opq).getD []) ++ t) ∧
    (∃ a t, r.errorString = a ++ goItoa r.response.statusCode ++ t) ∧
    (∃ a t, r.errorString = a ++ r.message ++ t) ∧
    (∃ a, r.errorString = a ++ renderErrorsPlus r.errors) := by
  have he : r.errorString =
      r.response.request.method ++ " ".data ++
      (r.response.request.url.scheme ++ "://".data ++
        r.response.request.url.host ++
        (queryUnescapeC r.response.request.url.opq).getD []) ++
      ": ".data ++ goItoa r.response.statusCode ++ " ".data ++
      r.message ++ " ".data ++ renderErrorsPlus r.errors := rfl
  refine ⟨⟨" ".data ++
      (r.response.request.url.scheme ++ "://".data ++
        r.response.request.url.host ++
        (queryUnescapeC r.response.request.url.opq).getD []) ++
      ": ".data ++ goItoa r.response.statusCode ++ " ".data ++
      r.message ++ " ".data ++ renderErrorsPlus r.errors, ?_⟩,
    ⟨r.response.request.method ++ " ".data,
      ": ".data ++ goItoa r.response.statusCode ++ " ".data ++
      r.message ++ " ".data ++ renderErrorsPlus r.errors, ?_⟩,
    ⟨r.response.request.method ++ " ".data ++
      (r.response.request.url.scheme ++ "://".data ++
        r.response.request.url.host ++
        (queryUnescapeC r.response.request.url.opq).getD []) ++ ": ".data,
      " ".data ++ r.message ++ " ".data ++ renderErrorsPlus r.errors, ?_⟩,
    ⟨r.response.request.method ++ " ".data ++
      (r.response.request.url.scheme ++ "://".data ++
        r.response.request.url.host ++
        (queryUnescapeC r.response.request.url.opq).getD []) ++
      ": ".data ++ goItoa r.response.statusCode ++ " ".data,
      " ".data ++ renderErrorsPlus r.errors, ?_⟩,
    ⟨r.response.request.method ++ " ".data ++
      (r.response.request.url.scheme ++ "://".data ++
        r.response.request.url.host ++
        (queryUnescapeC r.response.request.url.opq).getD []) ++
      ": ".data ++ goItoa r.response.statusCode ++ " ".data ++
      r.message ++ " ".data, ?_⟩⟩ <;>
    simp only [he, List.append_assoc]

/-- `setHeader` unfolded: the new pair in front of the other keys. -/
theorem setHeader_eq (h : List (List Char × List Char)) (k v : List Char) :
    setHeader h k v = (k, v) :: h.filter (fun p => p.1 ≠ k) := rfl

/-- `getHeader` on a cons cell. -/
theorem getHeader_cons (l : List (List Char × List Char)) (k k' v : List Char) :
    getHeader ((k, v) :: l) k' = if k = k' then some v else getHeader l k' := by
  by_cases h : k = k' <;> simp [getHeader, List.find?, h]

/-- A freshly set header is found. -/
theorem getHeader_set_same (h : List (List Char × List Char)) (k v : List Char) :
    getHeader (setHeader h k v) k = some v := by
  rw [setHeader_eq, getHeader_cons, if_pos rfl]

/-- `finishHeaders` always installs the fixed default credentials. -/
theorem finishHeaders_basicAuth (c : ClientM) (r : RequestM) :
    (finishHeaders c r).basicAuth = some (defaultUser, defaultPassword) := rfl

/-- `finishHeaders` leaves method, URL and body untouched. -/
theorem finishHeaders_fields (c : ClientM) (r : RequestM) :
    (finishHeaders c r).method = r.method ∧
    (finishHeaders c r).url = r.url ∧
    (finishHeaders c r).body = r.body := ⟨rfl, rfl, rfl⟩

/-- After `finishHeaders` the `Accept` header is `application/json`. -/
theorem finishHeaders_accept (c : ClientM) (r : RequestM) :
    getHeader (finishHeaders c r).headers ("Accept".data) =
      some ("application/json".data) := by
  simp only [finishHeaders]
  rcases eq_or_ne c.userAgent [] with hua | hua
  · rw [if_neg (by simp [hua])]
    exact getHeader_set_same _ _ _
  · rw [if_pos hua, setHeader_eq, getHeader_cons, if_neg (by decide),
      setHeader_eq, List.filter_cons_of_pos (by decide), getHeader_cons,
      if_pos rfl]

/-- After `finishHeaders` with a nonempty user agent, the `User-Agent`
header carries it. -/
theorem finishHeaders_userAgent (c : ClientM) (r : RequestM)
    (hua : c.userAgent ≠ []) :
    getHeader (finishHeaders c r).headers ("User-Agent".data) =
      some c.userAgent := by
  simp only [finishHeaders]
  rw [if_pos hua]
  exact getHeader_set_same _ _ _

/-- Dropping pairs keyed by a different key does not change a lookup. -/
theorem getHeader_filter_ne (l : List (List Char × List Char)) (u k : List Char)
    (h : u ≠ k) :
    getHeader (l.filter (fun p => p.1 ≠ u)) k = getHeader l k := by
  induction l with
  | nil => rfl
  | cons p t ih =>
    obtain ⟨k1, v1⟩ := p
    by_cases hp : k1 = u
    · subst hp
      rw [List.filter_cons_of_neg (by simp), getHeader_cons, if_neg h, ih]
    · rw [List.filter_cons_of_pos (by simp [hp]), getHeader_cons, getHeader_cons]
      by_cases hk : k1 = k
      · rw [if_pos hk, if_pos hk]
      · rw [if_neg hk, if_neg hk, ih]

/-- After `finishHeaders`, a key other than `Accept` and `User-Agent` is
looked up in the previous headers. -/
theorem getHeader_finishHeaders_other (c : ClientM) (r : RequestM)
    (k : List Char)
    (hka : ("Accept".data : List Char) ≠ k)
    (hku : ("User-Agent".data : List Char) ≠ k) :
    getHeader (finishHeaders c r).headers k =
      getHeader (r.headers.filter (fun p => p.1 ≠ "Accept".data)) k := by
  simp only [finishHeaders]
  rcases eq_or_ne c.userAgent [] with hua | hua
  · rw [if_neg (by simp [hua]), setHeader_eq, getHeader_cons, if_neg hka]
  · rw [if_pos hua, setHeader_eq, getHeader_cons, if_neg hku, setHeader_eq,
      List.filter_cons_of_pos (by decide), getHeader_cons, if_neg hka,
      getHeader_filter_ne _ _ _ hku]

/-- C1: every request built by `NewRequest` carries basic authentication
with the fixed defaults `"admin"`/`"admin"` regardless of the client
value, an `Accept: application/json` header, and — when the client's
`UserAgent` is nonempty — a `User-Agent` header equal to it. -/
theorem newRequest_auth_headers (c : ClientM) (method path : List Char)
    (opt : OptModel) (req : RequestM)
    (h : NewRequest c method path opt = .ok req) :
    req.basicAuth = some (defaultUser, defaultPassword) ∧
    defaultUser = "admin".data ∧ defaultPassword = "admin".data ∧
    getHeader req.headers ("Accept".data) = some ("application/json".data) ∧
    (c.userAgent ≠ [] →
      getHeader req.headers ("User-Agent".data) = some c.userAgent) := by
  unfold NewRequest at h
  cases hq : opt.queryEnc with
  | error e => rw [hq] at h; cases h
  | ok qenc =>
    rw [hq] at h
    simp only at h
    split at h
    · cases hj : opt.jsonEnc with
      | error e => rw [hj] at h; cases h
      | ok bodyBytes =>
        rw [hj] at h
        have hre := (Except.ok.inj h).symm
        subst hre
        exact ⟨finishHeaders_basicAuth c _, rfl, rfl, finishHeaders_accept c _,
          finishHeaders_userAgent c _⟩
    · have hre := (Except.ok.inj h).symm
      subst hre
      exact ⟨finishHeaders_basicAuth c _, rfl, rfl, finishHeaders_accept c _,
        finishHeaders_userAgent c _⟩

/-- Witness for C1: a `GET` with empty options on the default client. -/
theorem newRequest_auth_headers_witness :
    getHeader
      (match NewRequest {} ("GET".data) ("tasks/".data) {} with
        | .ok r => r.headers
        | .error _ => []) ("Accept".data) = some ("application/json".data) :=
  (newRequest_auth_headers {} ("GET".data) ("tasks/".data) {} _ rfl).2.2.2.1

/-- C3: a request built with a write method (`POST` or `PUT`) has an empty
query string, a body equal to the JSON marshaling of the options, and a
`Content-Type: application/json` header; and on every request body
encoding and query encoding are never both present. -/
theorem newRequest_write_spec (c : ClientM) (method path : List Char)
    (opt : OptModel) (req : RequestM)
    (h : NewRequest c method path opt = .ok req) :
    (req.body.isSome = true → req.url.rawQuery = []) ∧
    (method = "POST".data ∨ method = "PUT".data →
      req.url.rawQuery = [] ∧
      (∃ jb, opt.jsonEnc = .ok jb ∧ req.body = some jb) ∧
      getHeader req.headers ("Content-Type".data) =
        some ("application/json".data)) := by
  unfold NewRequest at h
  cases hq : opt.queryEnc with
  | error e => rw [hq] at h; cases h
  | ok qenc =>
    rw [hq] at h
    simp only at h
    split at h
    case isTrue hm =>
      cases hj : opt.jsonEnc with
      | error e => rw [hj] at h; cases h
      | ok bodyBytes =>
        rw [hj] at h
        have hre := (Except.ok.inj h).symm
        subst hre
        refine ⟨fun _ => rfl, fun _ => ⟨rfl, ⟨bodyBytes, rfl, rfl⟩, ?_⟩⟩
        rw [getHeader_finishHeaders_other c _ _ (by decide) (by decide)]
        rw [setHeader_eq]
        rw [List.filter_cons_of_pos (by decide), getHeader_cons, if_pos rfl]
    case isFalse hm =>
      have hre := (Except.ok.inj h).symm
      subst hre
      exact ⟨fun hb => absurd hb (by simp [finishHeaders]),
        fun hw => absurd hw hm⟩

/-- Witness for C3: a `POST` with a concrete JSON body. -/
theorem newRequest_write_spec_witness :
    (match NewRequest {} ("POST".data) ("repositories/r/actions/sync/".data)
        { jsonEnc := .ok ("\x7b\x7d".data) } with
      | .ok r => r.url.rawQuery
      | .error _ => ['x']) = [] :=
  ((newRequest_write_spec {} ("POST".data) ("repositories/r/actions/sync/".data)
      { jsonEnc := .ok ("\x7b\x7d".data) } _ rfl).2 (Or.inl rfl)).1

/-- C4: when the transport succeeds but the status code is not 2xx, `Do`
returns the error classified from the response together with a non-nil
`Response` whose pagination fields are those derived from the `Link`
header, and leaves the caller's target untouched. -/
theorem do_failure_spec {β : Type} (dec : List Char → Except (List Char) β)
    (unmarshal : List Char → Option (List Char × List ErrorM))
    (resp : HTTPResponseM) (v : DoTarget β)
    (h : ¬ (200 ≤ resp.statusCode ∧ resp.statusCode ≤ 299)) :
    ∃ er, Do dec unmarshal (.ok resp) v =
        (some (newResponse resp), some (.apiE er), v) ∧
      er.response = resp ∧
      (newResponse resp).pages = populatePageValues resp.headers := by
  obtain ⟨er, her, hresp⟩ :
      ∃ er, CheckResponse unmarshal resp = some er ∧ er.response = resp := by
    unfold CheckResponse
    rw [if_neg h]
    cases unmarshal resp.body
    · exact ⟨_, rfl, rfl⟩
    · exact ⟨_, rfl, rfl⟩
  refine ⟨er, ?_, hresp, rfl⟩
  simp only [Do, her]

/-- The concrete 404 response used by the C4 witness. -/
def resp404 : HTTPResponseM :=
  { statusCode := 404,
    headers := [("Link".data, ["<http://x/?page=2>; rel=\"next\"".data])] }

/-- Witness for C4 at a concrete 404 carrying a `Link` header. -/
theorem do_failure_spec_witness :
    ∃ er, Do (fun _ => Except.error []) (fun _ => none) (Except.ok resp404)
        (DoTarget.nilT (β := Unit)) =
        (some (newResponse resp404), some (.apiE er), DoTarget.nilT) ∧
      er.response = resp404 ∧
      (newResponse resp404).pages = populatePageValues resp404.headers :=
  do_failure_spec (fun _ => Except.error []) (fun _ => none) resp404 _
    (by decide)

/-- C6: on a 2xx response, a writer target receives the body bytes
verbatim with no decoding, a non-nil non-writer target receives the
JSON-decoded value, and a nil target is left untouched with no error. -/
theorem do_success_spec {β : Type} (dec : List Char → Except (List Char) β)
    (unmarshal : List Char → Option (List Char × List ErrorM))
    (resp : HTTPResponseM)
    (h2 : 200 ≤ resp.statusCode ∧ resp.statusCode ≤ 299) :
    (∀ buf, Do dec unmarshal (.ok resp) (.writerT buf) =
      (some (newResponse resp), none, .writerT (buf ++ resp.body))) ∧
    (∀ (x : Option β) b, dec resp.body = .ok b →
      Do dec unmarshal (.ok resp) (.decodeT x) =
        (some (newResponse resp), none, .decodeT (some b))) ∧
    (Do dec unmarshal (.ok resp) .nilT =
      (some (newResponse resp), none, .nilT)) := by
  have hc : CheckResponse unmarshal resp = none := by
    unfold CheckResponse; rw [if_pos h2]
  refine ⟨fun buf => ?_, fun x b hb => ?_, ?_⟩
  · simp only [Do, hc]
  · simp only [Do, hc, hb]
  · simp only [Do, hc]

/-- Witness for C6: a writer target against a concrete 200 response with
body `ok`. -/
theorem do_success_spec_witness :
    Do (fun s => Except.ok s.length) (fun _ => none)
      (Except.ok ({ statusCode := 200, body := "ok".data } : HTTPResponseM))
      (.writerT ("pre-".data)) =
    (some (newResponse { statusCode := 200, body := "ok".data }), none,
      .writerT ("pre-".data ++ "ok".data)) :=
  (do_success_spec (fun s => Except.ok s.length) (fun _ => none)
    { statusCode := 200, body := "ok".data } (by decide)).1 ("pre-".data)

/-- A segment that does not trim to `rel="next"` leaves `next` alone. -/
theorem processSegment_next (page : List Char) (st : Pages) (seg : List Char)
    (h : trimC seg ≠ relC ("next".data)) :
    (processSegment page st seg).next = st.next := by
  unfold processSegment
  repeat' split
  all_goals first
    | rfl
    | exact absurd (by assumption) h

/-- A segment that does not trim to `rel="prev"` leaves `prev` alone. -/
theorem processSegment_prev (page : List Char) (st : Pages) (seg : List Char)
    (h : trimC seg ≠ relC ("prev".data)) :
    (processSegment page st seg).prev = st.prev := by
  unfold processSegment
  repeat' split
  all_goals first
    | rfl
    | exact absurd (by assumption) h

/-- A segment that does not trim to `rel="first"` leaves `first` alone. -/
theorem processSegment_first (page : List Char) (st : Pages) (seg : List Char)
    (h : trimC seg ≠ relC ("first".data)) :
    (processSegment page st seg).first = st.first := by
  unfold processSegment
  repeat' split
  all_goals first
    | rfl
    | exact absurd (by assumption) h

/-- A segment that does not trim to `rel="last"` leaves `last` alone. -/
theorem processSegment_last (page : List Char) (st : Pages) (seg : List Char)
    (h : trimC seg ≠ relC ("last".data)) :
    (processSegment page st seg).last = st.last := by
  unfold processSegment
  repeat' split
  all_goals first
    | rfl
    | exact absurd (by assumption) h

/-- Folding segments none of which mentions the given relation preserves
the corresponding projection of the page state. -/
theorem foldl_processSegment_proj (f : Pages → Int) (rel : List Char)
    (hstep : ∀ page st seg, trimC seg ≠ relC rel →
      f (processSegment page st seg) = f st)
    (page : List Char) (l : List (List Char)) (st : Pages)
    (h : ∀ seg ∈ l, trimC seg ≠ relC rel) :
    f (l.foldl (processSegment page) st) = f st := by
  induction l generalizing st with
  | nil => rfl
  | cons s t ih =>
    rw [List.foldl_cons,
      ih _ (fun seg hs => h seg (List.mem_cons_of_mem _ hs)),
      hstep page st s (h s (List.mem_cons_self _ _))]

/-- A link none of whose `rel` segments mentions the given relation
preserves the corresponding projection of the page state. -/
theorem processLink_proj (f : Pages → Int) (rel : List Char)
    (hstep : ∀ page st seg, trimC seg ≠ relC rel →
      f (processSegment page st seg) = f st)
    (st : Pages) (link : List Char)
    (h : ∀ seg ∈ (splitOnC ';' (trimC link)).tail, trimC seg ≠ relC rel) :
    f (processLink st link) = f st := by
  unfold processLink
  cases hsp : splitOnC ';' (trimC link) with
  | nil => simp only [hsp]
  | cons s0 ss =>
    rw [hsp] at h
    cases ss with
    | nil => simp only [hsp]
    | cons s1 rest =>
      simp only [hsp]
      simp only [List.tail_cons] at h
      split
      · split
        · rfl
        · split
          · rfl
          · exact foldl_processSegment_proj f rel hstep _ _ st h
      · rfl

/-- Folding links none of whose segments mentions the given relation
preserves the corresponding projection of the page state. -/
theorem foldl_processLink_proj (f : Pages → Int) (rel : List Char)
    (hstep : ∀ page st seg, trimC seg ≠ relC rel →
      f (processSegment page st seg) = f st)
    (links : List (List Char)) (st : Pages)
    (h : ∀ link ∈ links, ∀ seg ∈ (splitOnC ';' (trimC link)).tail,
      trimC seg ≠ relC rel) :
    f (links.foldl processLink st) = f st := by
  induction links generalizing st with
  | nil => rfl
  | cons l t ih =>
    rw [List.foldl_cons,
      ih _ (fun x hx => h x (List.mem_cons_of_mem _ hx)),
      processLink_proj f rel hstep st l (h l (List.mem_cons_self _ _))]

/-- `populatePageValues` on a single `Link` header value folds its
comma-separated links over the zero state. -/
theorem populate_single (hv : List Char) :
    populatePageValues [("Link".data, [hv])] =
      (splitOnC ',' hv).foldl processLink {} := rfl

/-- C5: parsing the example `Link` header yields NextPage 2, PrevPage 1,
FirstPage 0, LastPage 0; a malformed or incomplete link (fewer than two
segments, href not in angle brackets, unparsable URL, or no `page` query
parameter) is skipped leaving the state unchanged; and a relation never
mentioned by the header leaves its field at the zero value. -/
theorem populatePageValues_spec :
    (populatePageValues [("Link".data,
        ["<http://x/?page=2>; rel=\"next\", <http://x/?page=1>; rel=\"prev\"".data])] =
      { next := 2, prev := 1, first := 0, last := 0 }) ∧
    (∀ st link s0 ss, splitOnC ';' (trimC link) = s0 :: ss →
      (ss = [] ∨ ¬ (s0.take 1 = ['<'] ∧ endsWithC '>' s0 = true) ∨
        urlParseC ((s0.drop 1).dropLast) = none ∨
        (∃ u, urlParseC ((s0.drop 1).dropLast) = some u ∧
          queryGetC u.rawQuery ("page".data) = [])) →
      processLink st link = st) ∧
    (∀ hv, noRelSegment ("next".data) hv →
      (populatePageValues [("Link".data, [hv])]).next = 0) ∧
    (∀ hv, noRelSegment ("prev".data) hv →
      (populatePageValues [("Link".data, [hv])]).prev = 0) ∧
    (∀ hv, noRelSegment ("first".data) hv →
      (populatePageValues [("Link".data, [hv])]).first = 0) ∧
    (∀ hv, noRelSegment ("last".data) hv →
      (populatePageValues [("Link".data, [hv])]).last = 0) := by
  refine ⟨by decide, ?_, ?_, ?_, ?_, ?_⟩
  · intro st link s0 ss hsp hOr
    cases ss with
    | nil =>
      unfold processLink
      simp only [hsp]
    | cons s1 rest =>
      unfold processLink
      simp only [hsp]
      show (if List.take 1 s0 = ['<'] ∧ endsWithC '>' s0 = true then
          match urlParseC (List.drop 1 s0).dropLast with
          | none => st
          | some u =>
            if queryGetC u.rawQuery ("page".data) = [] then st
            else List.foldl
              (processSegment (queryGetC u.rawQuery ("page".data))) st
              (s1 :: rest)
        else st) = st
      rcases hOr with hss | hbr | hparse | ⟨u, hu, hpage⟩
      · exact absurd hss (List.cons_ne_nil _ _)
      · rw [if_neg hbr]
      · rw [hparse]
        split <;> rfl
      · rw [hu]
        show (if List.take 1 s0 = ['<'] ∧ endsWithC '>' s0 = true then
            (if queryGetC u.rawQuery ("page".data) = [] then st
             else List.foldl
               (processSegment (queryGetC u.rawQuery ("page".data))) st
               (s1 :: rest))
          else st) = st
        rw [if_pos hpage]
        split <;> rfl
  · exact fun hv h => by
      rw [populate_single]
      exact foldl_processLink_proj Pages.next _ processSegment_next _ _ h
  · exact fun hv h => by
      rw [populate_single]
      exact foldl_processLink_proj Pages.prev _ processSegment_prev _ _ h
  · exact fun hv h => by
      rw [populate_single]
      exact foldl_processLink_proj Pages.first _ processSegment_first _ _ h
  · exact fun hv h => by
      rw [populate_single]
      exact foldl_processLink_proj Pages.last _ processSegment_last _ _ h

/-- Witness for C5: a link without angle brackets is skipped. -/
theorem populatePageValues_spec_witness :
    processLink {} ("bogus; rel=\"next\"".data) = {} :=
  populatePageValues_spec.2.1 {} ("bogus; rel=\"next\"".data)
    ("bogus".data) [(" rel=\"next\"".data)] (by decide)
    (Or.inr (Or.inl (by decide)))

/-- When `splitFirstC` finds the separator, the input decomposes around
its first occurrence. -/
theorem splitFirstC_some (sep : Char) :
    ∀ (l a b : List Char), splitFirstC sep l = (a, some b) →
      l = a ++ sep :: b := by
  intro l
  induction l with
  | nil =>
    intro a b h
    exact absurd ((Prod.ext_iff.mp h).2) (by simp [splitFirstC])
  | cons c cs ih =>
    intro a b h
    unfold splitFirstC at h
    by_cases hc : c = sep
    · rw [if_pos hc] at h
      have h1 : a = [] := ((Prod.ext_iff.mp h).1).symm
      have h2 : cs = b := Option.some.inj (Prod.ext_iff.mp h).2
      subst h1
      subst h2
      subst hc
      rfl
    · rw [if_neg hc] at h
      have h1 : c :: (splitFirstC sep cs).1 = a := (Prod.ext_iff.mp h).1
      have h2 : (splitFirstC sep cs).2 = some b := (Prod.ext_iff.mp h).2
      have hr : splitFirstC sep cs = ((splitFirstC sep cs).1, some b) := by
        rw [← h2]
      have hcs := ih _ b hr
      rw [← h1, List.cons_append, ← hcs]

/-- When `splitFirstC` does not find the separator, the input is returned
whole and the separator does not occur in it. -/
theorem splitFirstC_none (sep : Char) :
    ∀ (l a : List Char), splitFirstC sep l = (a, none) →
      l = a ∧ sep ∉ l := by
  intro l
  induction l with
  | nil =>
    intro a h
    have h1 : [] = a := (Prod.ext_iff.mp h).1
    exact ⟨h1, by simp⟩
  | cons c cs ih =>
    intro a h
    unfold splitFirstC at h
    by_cases hc : c = sep
    · rw [if_pos hc] at h
      exact absurd (Prod.ext_iff.mp h).2 (by simp)
    · rw [if_neg hc] at h
      have h1 : c :: (splitFirstC sep cs).1 = a := (Prod.ext_iff.mp h).1
      have h2 : (splitFirstC sep cs).2 = none := (Prod.ext_iff.mp h).2
      have hr : splitFirstC sep cs = ((splitFirstC sep cs).1, none) := by
        rw [← h2]
      obtain ⟨hcs, hnm⟩ := ih _ hr
      constructor
      · rw [← h1, ← hcs]
      · intro hmem
        rcases List.mem_cons.mp hmem with h | h
        · exact hc h.symm
        · exact hnm h

/-- `endsWithC` in terms of `getLast?`. -/
theorem endsWithC_iff (c : Char) (l : List Char) :
    endsWithC c l = true ↔ l.getLast? = some c := by
  simp [endsWithC]

/-- Splitting a `/`-terminated list at a separator other than `/` leaves a
nonempty, `/`-terminated part after the separator. -/
theorem ends_through_split (sep : Char) (hne : sep ≠ '/')
    (l a b : List Char) (hsp : splitFirstC sep l = (a, some b))
    (hl : l.getLast? = some '/') :
    b ≠ [] ∧ b.getLast? = some '/' := by
  have hdec := splitFirstC_some sep l a b hsp
  subst hdec
  rw [List.getLast?_append_cons] at hl
  cases b with
  | nil =>
    rw [List.getLast?_singleton] at hl
    exact absurd (Option.some.inj hl) hne
  | cons x xs =>
    rw [List.getLast?_cons_cons] at hl
    exact ⟨List.cons_ne_nil _ _, hl⟩

/-- A `/`-terminated list is nonempty. -/
theorem ne_nil_of_ends (l : List Char) (h : l.getLast? = some '/') :
    l ≠ [] := by
  intro hl
  subst hl
  exact Option.noConfusion h

/-- `findSchemeAux` either returns the original input whole (no scheme) or
the remainder after the first colon of a scheme run. -/
theorem findSchemeAux_spec (orig : List Char) :
    ∀ (l acc pre : List Char) (first : Bool), orig = pre ++ l →
      ∀ sch rest, findSchemeAux orig acc first l = some (sch, rest) →
        rest = orig ∨ ∃ q, orig = q ++ ':' :: rest := by
  intro l
  induction l with
  | nil =>
    intro acc pre first horig sch rest h
    unfold findSchemeAux at h
    exact Or.inl ((Prod.ext_iff.mp (Option.some.inj h)).2).symm
  | cons c cs ih =>
    intro acc pre first horig sch rest h
    unfold findSchemeAux at h
    split at h
    · exact ih _ (pre ++ [c]) false (by rw [horig, List.append_assoc]; rfl)
        sch rest h
    · split at h
      · exact ih _ (pre ++ [c]) false (by rw [horig, List.append_assoc]; rfl)
          sch rest h
      · split at h
        case isTrue hc =>
          split at h
          · exact Option.noConfusion h
          · have h2 : cs = rest := (Prod.ext_iff.mp (Option.some.inj h)).2
            refine Or.inr ⟨pre, ?_⟩
            rw [horig, ← h2, hc]
        case isFalse hc =>
          exact Or.inl ((Prod.ext_iff.mp (Option.some.inj h)).2).symm

/-- `findScheme` wrapper of the previous lemma. -/
theorem findScheme_spec (l sch rest : List Char)
    (h : findScheme l = some (sch, rest)) :
    rest = l ∨ ∃ q, l = q ++ ':' :: rest :=
  findSchemeAux_spec l l [] [] true rfl sch rest h

/-- A URL with a nonempty `/`-terminated fragment renders `/`-terminated. -/
theorem toGoString_ends_frag (u : GoURL) (h1 : u.fragment ≠ [])
    (h2 : u.fragment.getLast? = some '/') :
    (toGoStringC u).getLast? = some '/' := by
  unfold toGoStringC
  rw [if_pos h1, List.getLast?_append_cons]
  cases hf : u.fragment with
  | nil => exact absurd hf h1
  | cons x xs =>
    rw [hf] at h2
    rw [List.getLast?_cons_cons]
    exact h2

/-- A URL with no fragment and a nonempty `/`-terminated query renders
`/`-terminated. -/
theorem toGoString_ends_query (u : GoURL) (hf : u.fragment = [])
    (h1 : u.rawQuery ≠ []) (h2 : u.rawQuery.getLast? = some '/') :
    (toGoStringC u).getLast? = some '/' := by
  unfold toGoStringC
  rw [if_neg (show ¬ u.fragment ≠ [] from by simp [hf]), List.append_nil,
    if_pos (show u.forceQuery = true ∨ u.rawQuery ≠ [] from Or.inr h1),
    List.getLast?_append_cons]
  cases hq : u.rawQuery with
  | nil => exact absurd hq h1
  | cons x xs =>
    rw [hq] at h2
    rw [List.getLast?_cons_cons]
    exact h2

/-- A URL with no fragment, no query, and a `/`-terminated opaque part,
path, or bare `scheme://` renders `/`-terminated. -/
theorem toGoString_ends_main (u : GoURL) (hf : u.fragment = [])
    (hq : u.rawQuery = []) (hfq : u.forceQuery = false)
    (hmain : (u.opq ≠ [] ∧ u.opq.getLast? = some '/') ∨
      (u.opq = [] ∧ u.path ≠ [] ∧ u.path.getLast? = some '/') ∨
      (u.opq = [] ∧ u.path = [] ∧ u.host = [] ∧ u.scheme ≠ [])) :
    (toGoStringC u).getLast? = some '/' := by
  unfold toGoStringC
  rw [if_neg (show ¬ u.fragment ≠ [] from by simp [hf]), List.append_nil,
    if_neg (show ¬ (u.forceQuery = true ∨ u.rawQuery ≠ []) from
      by simp [hq, hfq]),
    List.append_nil]
  rcases hmain with ⟨h1, h2⟩ | ⟨h0, h1, h2⟩ | ⟨h0, h1, h2, h3⟩
  · rw [if_pos h1]
    rw [List.getLast?_append_of_ne_nil _ h1]
    exact h2
  · rw [if_neg (show ¬ u.opq ≠ [] from by simp [h0])]
    rw [List.getLast?_append_of_ne_nil _
        (show (if u.scheme ≠ [] ∨ u.host ≠ [] then '/' :: '/' :: u.host
          else []) ++ u.path ≠ [] from by simp [h1]),
      List.getLast?_append_of_ne_nil _ h1]
    exact h2
  · rw [if_neg (show ¬ u.opq ≠ [] from by simp [h0]), if_pos h3,
      if_pos (show u.scheme ≠ [] ∨ u.host ≠ [] from Or.inl h3), h1, h2,
      List.append_nil,
      List.getLast?_append_of_ne_nil _
        (show ('/' :: '/' :: ([] : List Char)) ≠ [] from by simp)]
    rfl

/-- A URL with a nonempty scheme never renders to the empty string. -/
theorem toGoString_ne_nil_of_scheme (u : GoURL) (h : u.scheme ≠ []) :
    toGoStringC u ≠ [] := by
  unfold toGoStringC
  rw [if_pos h]
  simp

/-- A list whose first two elements are `[a, b]` decomposes as such. -/
theorem take_two_eq (l : List Char) (a b : Char) (h : l.take 2 = [a, b]) :
    l = a :: b :: l.drop 2 := by
  cases l with
  | nil => exact absurd h (by simp)
  | cons x xs =>
    cases xs with
    | nil => exact absurd h (by simp)
    | cons y ys =>
      have h' : [x, y] = [a, b] := h
      rw [(List.cons.inj h').1, (List.cons.inj (List.cons.inj h').2).1]
      rfl

/-- `parseTail` passes scheme, query, force-query flag and fragment through
to every URL it yields. -/
theorem parseTail_inv (scheme rest rawQ : List Char) (forceQ : Bool)
    (frag : List Char) (u : GoURL)
    (hp : parseTail scheme rest rawQ forceQ frag = some u) :
    u.scheme = scheme ∧ u.rawQuery = rawQ ∧ u.forceQuery = forceQ ∧
      u.fragment = frag := by
  unfold parseTail at hp
  split at hp
  · have := Option.some.inj hp
    subst this
    exact ⟨rfl, rfl, rfl, rfl⟩
  · split at hp
    · have := Option.some.inj hp
      subst this
      exact ⟨rfl, rfl, rfl, rfl⟩
    · split at hp
      · exact Option.noConfusion hp
      · have := Option.some.inj hp
        subst this
        exact ⟨rfl, rfl, rfl, rfl⟩

/-- `parseNoQuery` passes query, force-query flag and fragment through,
and its scheme is the lower-cased scheme found in the input. -/
theorem parseNoQuery_inv (rest0 rawQ : List Char) (forceQ : Bool)
    (frag : List Char) (u : GoURL)
    (hp : parseNoQuery rest0 rawQ forceQ frag = some u) :
    u.rawQuery = rawQ ∧ u.forceQuery = forceQ ∧ u.fragment = frag := by
  unfold parseNoQuery at hp
  cases hfs : findScheme rest0 with
  | none => rw [hfs] at hp; exact Option.noConfusion hp
  | some sr =>
    obtain ⟨sch, rest⟩ := sr
    rw [hfs] at hp
    exact (parseTail_inv _ _ _ _ _ _ hp).2

/-- `parseNoFrag` passes the fragment through. -/
theorem parseNoFrag_inv (bf frag : List Char) (u : GoURL)
    (hp : parseNoFrag bf frag = some u) : u.fragment = frag := by
  unfold parseNoFrag at hp
  split at hp
  · exact (parseNoQuery_inv _ _ _ _ _ hp).2.2
  · exact (parseNoQuery_inv _ _ _ _ _ hp).2.2

/-- The tail stage maps a `/`-terminated remainder (with no query and no
fragment) to a URL rendering `/`-terminated, or to the empty rendering. -/
theorem parseTail_ends (scheme rest : List Char) (u : GoURL)
    (hp : parseTail scheme rest [] false [] = some u)
    (hrest : rest.getLast? = some '/') :
    (toGoStringC u).getLast? = some '/' ∨ toGoStringC u = [] := by
  unfold parseTail at hp
  split at hp
  case isTrue htake =>
    have hdec := take_two_eq rest '/' '/' htake
    have hu := Option.some.inj hp
    subst hu
    rcases hd : rest.drop 2 with _ | ⟨c, cs⟩
    · rcases eq_or_ne scheme [] with hsch | hsch
      · subst hsch
        exact Or.inr rfl
      · refine Or.inl (toGoString_ends_main _ rfl rfl rfl ?_)
        exact Or.inr (Or.inr ⟨rfl, rfl, rfl, hsch⟩)
    · rw [hd] at hdec
      have hrest2 : (c :: cs).getLast? = some '/' := by
        rw [hdec, List.getLast?_cons_cons, List.getLast?_cons_cons] at hrest
        exact hrest
      cases hsp2 : (splitFirstC '/' (c :: cs)).2 with
      | none =>
        obtain ⟨hdd, hnm⟩ := splitFirstC_none '/' (c :: cs) _ (by rw [← hsp2])
        exact absurd (List.mem_of_getLast?_eq_some hrest2) hnm
      | some p =>
        have hddec := splitFirstC_some '/' (c :: cs) _ p (by rw [← hsp2])
        have hpend : ('/' :: p).getLast? = some '/' := by
          rw [hddec, List.getLast?_append_cons] at hrest2
          exact hrest2
        refine Or.inl (toGoString_ends_main _ rfl rfl rfl ?_)
        exact Or.inr (Or.inl ⟨rfl, List.cons_ne_nil _ _, hpend⟩)
  case isFalse =>
    split at hp
    case isTrue hopq =>
      have hu := Option.some.inj hp
      subst hu
      exact Or.inl (toGoString_ends_main _ rfl rfl rfl
        (Or.inl ⟨ne_nil_of_ends rest hrest, hrest⟩))
    case isFalse =>
      split at hp
      · exact Option.noConfusion hp
      · have hu := Option.some.inj hp
        subst hu
        exact Or.inl (toGoString_ends_main _ rfl rfl rfl
          (Or.inr (Or.inl ⟨rfl, ne_nil_of_ends rest hrest, hrest⟩)))

/-- The scheme stage preserves the `/`-terminated (or empty) rendering for
`/`-terminated inputs. -/
theorem parseNoQuery_ends (rest0 : List Char) (u : GoURL)
    (hp : parseNoQuery rest0 [] false [] = some u)
    (h : rest0.getLast? = some '/') :
    (toGoStringC u).getLast? = some '/' ∨ toGoStringC u = [] := by
  unfold parseNoQuery at hp
  cases hfs : findScheme rest0 with
  | none => rw [hfs] at hp; exact Option.noConfusion hp
  | some sr =>
    obtain ⟨sch, rest⟩ := sr
    rw [hfs] at hp
    rcases findScheme_spec rest0 sch rest hfs with hr | ⟨q, hq⟩
    · exact parseTail_ends _ _ _ hp (by rw [hr]; exact h)
    · have hrend : rest.getLast? = some '/' := by
        rw [hq, List.getLast?_append_cons] at h
        cases rest with
        | nil =>
          rw [List.getLast?_singleton] at h
          exact absurd (Option.some.inj h) (by decide)
        | cons x xs =>
          rw [List.getLast?_cons_cons] at h
          exact h
      exact parseTail_ends _ _ _ hp hrend

/-- The query stage preserves the `/`-terminated (or empty) rendering for
`/`-terminated fragment-free inputs. -/
theorem parseNoFrag_ends (bf : List Char) (u : GoURL)
    (hp : parseNoFrag bf [] = some u) (h : bf.getLast? = some '/') :
    (toGoStringC u).getLast? = some '/' ∨ toGoStringC u = [] := by
  unfold parseNoFrag at hp
  rw [if_neg ?hcond] at hp
  case hcond =>
    intro hcon
    have h1 := (endsWithC_iff '?' bf).mp hcon.1
    rw [h] at h1
    exact absurd (Option.some.inj h1) (by decide)
  cases hq2 : (splitFirstC '?' bf).2 with
  | none =>
    obtain ⟨hbf, -⟩ := splitFirstC_none '?' bf _ (by rw [← hq2])
    rw [hq2] at hp
    exact parseNoQuery_ends _ _ hp (by rw [← hbf]; exact h)
  | some q =>
    obtain ⟨hqne, hqend⟩ := ends_through_split '?' (by decide) bf _ q
      (by rw [← hq2]) h
    rw [hq2] at hp
    have hru := (parseNoQuery_inv _ _ _ _ _ hp).1
    refine Or.inl (toGoString_ends_query u ?_ ?_ ?_)
    · exact (parseNoQuery_inv _ _ _ _ _ hp).2.2
    · rw [hru]; exact hqne
    · rw [hru]; exact hqend

/-- A `/`-terminated URL string accepted by the parser renders
`/`-terminated, or renders empty. -/
theorem urlParseC_ends (s : List Char) (u : GoURL)
    (hp : urlParseC s = some u) (hs : s.getLast? = some '/') :
    (toGoStringC u).getLast? = some '/' ∨ toGoStringC u = [] := by
  unfold urlParseC at hp
  split at hp
  · exact Option.noConfusion hp
  · cases hfs : (splitFirstC '#' s).2 with
    | none =>
      obtain ⟨hbf, -⟩ := splitFirstC_none '#' s _ (by rw [← hfs])
      rw [hfs] at hp
      exact parseNoFrag_ends _ _ hp (by rw [← hbf]; exact hs)
    | some f =>
      obtain ⟨hfne, hfend⟩ := ends_through_split '#' (by decide) s _ f
        (by rw [← hfs]) hs
      rw [hfs] at hp
      have hfrag := parseNoFrag_inv _ _ _ hp
      refine Or.inl (toGoString_ends_frag u ?_ ?_)
      · rw [hfrag]; exact hfne
      · rw [hfrag]; exact hfend

/-- After a successful `SetBaseURL`, the stored URL renders `/`-terminated
or renders empty. -/
theorem setBaseURL_ends (c : ClientM) (s : List Char) (c' : ClientM)
    (h : SetBaseURL c s = .ok c') :
    endsWithC '/' (toGoStringC c'.baseURL) = true ∨
      toGoStringC c'.baseURL = [] := by
  unfold SetBaseURL at h
  dsimp only at h
  cases hu : urlParseC (if endsWithC '/' s = true then s else s ++ ['/']) with
  | none => rw [hu] at h; exact Except.noConfusion h
  | some u =>
    rw [hu] at h
    have hc := Except.ok.inj h
    have hb : c'.baseURL = u := by rw [← hc]
    rw [hb]
    have hends :
        (if endsWithC '/' s = true then s else s ++ ['/']).getLast? =
          some '/' := by
      split
      case isTrue ht => exact (endsWithC_iff '/' s).mp ht
      case isFalse => exact List.getLast?_concat s
    rcases urlParseC_ends _ _ hu hends with he | hn
    · exact Or.inl ((endsWithC_iff _ _).mpr he)
    · exact Or.inr hn

/-- `splitFirstC` distributes over an appended prefix free of the
separator. -/
theorem splitFirstC_append_nosep (sep : Char) (pre : List Char)
    (hpre : sep ∉ pre) (l : List Char) :
    splitFirstC sep (pre ++ l) =
      (pre ++ (splitFirstC sep l).1, (splitFirstC sep l).2) := by
  induction pre with
  | nil => simp
  | cons c cs ih =>
    have hc : ¬ c = sep := fun hcc =>
      hpre (by rw [hcc]; exact List.mem_cons_self _ _)
    rw [List.cons_append]
    show (if c = sep then (([] : List Char), some (cs ++ l))
      else (c :: (splitFirstC sep (cs ++ l)).1, (splitFirstC sep (cs ++ l)).2)) =
      ((c :: cs) ++ (splitFirstC sep l).1, (splitFirstC sep l).2)
    rw [if_neg hc, ih (fun hm => hpre (List.mem_cons_of_mem _ hm))]
    rfl

/-- `findScheme` on a `http:`-prefixed string yields the `http` scheme. -/
theorem findScheme_http (X : List Char) :
    findScheme ("http".data ++ ':' :: X) = some ("http".data, X) := rfl

/-- `findScheme` on a `https:`-prefixed string yields the `https`
scheme. -/
theorem findScheme_https (X : List Char) :
    findScheme ("https".data ++ ':' :: X) = some ("https".data, X) := rfl

/-- Parsing a URL whose text starts with a syntactic `scheme:` prefix
yields that scheme (lower-cased), whatever follows. -/
theorem parse_scheme_of_prefixed (p : List Char)
    (hh : '#' ∉ p ++ [':']) (hqm : '?' ∉ p ++ [':'])
    (hfs : ∀ Z, findScheme (p ++ ':' :: Z) = some (p, Z))
    (X : List Char) (u : GoURL)
    (hp : urlParseC ((p ++ [':']) ++ X) = some u) :
    u.scheme = p.map Char.toLower := by
  have happ : ∀ Y : List Char, (p ++ [':']) ++ Y = p ++ ':' :: Y := by
    intro Y
    simp
  unfold urlParseC at hp
  split at hp
  · exact Option.noConfusion hp
  · rw [splitFirstC_append_nosep '#' (p ++ [':']) hh X] at hp
    dsimp only at hp
    unfold parseNoFrag at hp
    split at hp
    case isTrue hforce =>
      cases hbx : (splitFirstC '#' X).1 with
      | nil =>
        exfalso
        rw [hbx] at hforce
        have h1 := (endsWithC_iff _ _).mp hforce.1
        rw [List.append_nil, List.getLast?_concat] at h1
        exact absurd (Option.some.inj h1) (by decide)
      | cons b bs =>
        rw [hbx, List.dropLast_append_of_ne_nil _ (List.cons_ne_nil b bs)]
          at hp
        unfold parseNoQuery at hp
        rw [happ, hfs] at hp
        exact (parseTail_inv _ _ _ _ _ _ hp).1
    case isFalse =>
      rw [splitFirstC_append_nosep '?' (p ++ [':']) hqm _] at hp
      dsimp only at hp
      unfold parseNoQuery at hp
      rw [happ, hfs] at hp
      exact (parseTail_inv _ _ _ _ _ _ hp).1

/-- A successful `SetBaseURL` on a `scheme:`-prefixed, `/`-terminated URL
string stores a URL rendering `/`-terminated (the nonempty scheme rules
out the empty rendering). -/
theorem setBaseURL_prefixed_ends (c : ClientM) (p X : List Char)
    (c' : ClientM)
    (hh : '#' ∉ p ++ [':']) (hqm : '?' ∉ p ++ [':'])
    (hfs : ∀ Z, findScheme (p ++ ':' :: Z) = some (p, Z))
    (hlow : p.map Char.toLower ≠ [])
    (hX : ((p ++ [':']) ++ X).getLast? = some '/')
    (h : SetBaseURL c ((p ++ [':']) ++ X) = .ok c') :
    endsWithC '/' (toGoStringC c'.baseURL) = true := by
  rcases setBaseURL_ends c _ c' h with he | hn
  · exact he
  · exfalso
    unfold SetBaseURL at h
    dsimp only at h
    rw [if_pos ((endsWithC_iff _ _).mpr hX)] at h
    cases hu : urlParseC ((p ++ [':']) ++ X) with
    | none => rw [hu] at h; exact Except.noConfusion h
    | some u =>
      rw [hu] at h
      have hb : c'.baseURL = u := by rw [← Except.ok.inj h]
      have hsch := parse_scheme_of_prefixed p hh hqm hfs X u hu
      have hne : u.scheme ≠ [] := by rw [hsch]; exact hlow
      exact toGoString_ne_nil_of_scheme u hne (by rw [← hb]; exact hn)

/-- After a successful `SetHost` the stored URL renders `/`-terminated:
the fixed `http`/`https` scheme prefix rules out the empty rendering. -/
theorem setHost_ends (c : ClientM) (host : List Char) (c' : ClientM)
    (h : SetHost c host = .ok c') :
    endsWithC '/' (toGoStringC c'.baseURL) = true := by
  unfold SetHost at h
  dsimp only at h
  cases hssl : c.ssl with
  | false =>
    rw [hssl, if_neg (show ¬ (false = true) from by decide)] at h
    have hre : ("http".data : List Char) ++ "://".data ++ host ++
        "/pulp/api/".data ++ apiVersionConst ++ "/".data =
        ("http".data ++ [':']) ++
          ('/' :: '/' :: (host ++ "/pulp/api/".data ++ apiVersionConst ++
            "/".data)) := by
      simp
    rw [hre] at h
    refine setBaseURL_prefixed_ends c ("http".data) _ c' (by decide)
      (by decide) findScheme_http (by decide) ?_ h
    rw [← hre]
    exact List.getLast?_concat _
  | true =>
    rw [hssl, if_pos rfl] at h
    have hre : ("https".data : List Char) ++ "://".data ++ host ++
        "/pulp/api/".data ++ apiVersionConst ++ "/".data =
        ("https".data ++ [':']) ++
          ('/' :: '/' :: (host ++ "/pulp/api/".data ++ apiVersionConst ++
            "/".data)) := by
      simp
    rw [hre] at h
    refine setBaseURL_prefixed_ends c ("https".data) _ c' (by decide)
      (by decide) findScheme_https (by decide) ?_ h
    rw [← hre]
    exact List.getLast?_concat _

/-- C10 (amended): after every successful `SetBaseURL` the stored base
URL renders as a string ending in `/` — a missing slash is appended
before parsing — except for degenerate inputs (such as `"//"`) whose
parsed URL renders to the empty string; after every successful `SetHost`
(and hence `NewClient`) the fixed `http`/`https` prefix makes the
trailing slash unconditional; and `BaseURL()` returns a fresh copy of the
stored URL, so mutating the returned value never changes the client's
configuration. -/
theorem baseURL_spec :
    (∀ (c : ClientM) (s : List Char) (c' : ClientM),
      SetBaseURL c s = .ok c' →
        endsWithC '/' (toGoStringC c'.baseURL) = true ∨
          toGoStringC c'.baseURL = []) ∧
    (∀ (c : ClientM) (host : List Char) (c' : ClientM),
      SetHost c host = .ok c' →
        endsWithC '/' (toGoStringC c'.baseURL) = true) ∧
    (∀ (h : List GoURL) (p : Nat) (v : GoURL), p < h.length →
      (baseURLCopy h p).1 ≠ p ∧
      (baseURLCopy h p).2.getD (baseURLCopy h p).1 {} = h.getD p {} ∧
      ((baseURLCopy h p).2.set (baseURLCopy h p).1 v).getD p {} =
        h.getD p {}) := by
  refine ⟨setBaseURL_ends, setHost_ends, ?_⟩
  intro h p v hp
  refine ⟨ne_of_gt hp, ?_, ?_⟩
  · show (h ++ [h.getD p {}]).getD h.length {} = h.getD p {}
    rw [List.getD_eq_getElem?_getD, List.getElem?_concat_length]
    rfl
  · show ((h ++ [h.getD p {}]).set h.length v).getD p {} = h.getD p {}
    rw [List.getD_eq_getElem?_getD, List.getD_eq_getElem?_getD,
      List.getElem?_set_ne (ne_of_gt hp), List.getElem?_append_left hp]

/-- Counterexample to C10 as stated: `SetBaseURL` succeeds on the input
`"//"` (it already ends in `/`), yet the stored URL — empty scheme, empty
host, empty path — renders as the empty string, which does not end in
`/`. -/
theorem setBaseURL_slash_cex :
    SetBaseURL {} ("//".data) = .ok ({} : ClientM) ∧
    endsWithC '/' (toGoStringC (({} : ClientM)).baseURL) = false :=
  ⟨rfl, rfl⟩

/-- Witness for C10 at the concrete base URL `http://h` (slash appended,
then parsed). -/
theorem baseURL_spec_witness :
    endsWithC '/'
      (toGoStringC (match SetBaseURL {} ("http://h".data) with
        | .ok c' => c'.baseURL
        | .error _ => {})) = true ∨
    toGoStringC (match SetBaseURL {} ("http://h".data) with
        | .ok c' => c'.baseURL
        | .error _ => {}) = [] :=
  baseURL_spec.1 {} ("http://h".data) _ rfl

end GoPulp
